import Mathlib

/-!
Verification of the `Path` value type from `src/types/Path.ts`.

The TypeScript class is shallowly embedded here.  JavaScript strings are
modelled as `List Char` and the handful of JS string primitives the source
uses (`split`, `join`, `startsWith`, concatenation) are given direct
recursive definitions with the same semantics.  The external collaborators
the source delegates to (the `deno/path` string helpers and the Deno/std
filesystem primitives) are not part of the repository; following the design
document they are modelled from its words, each such definition carrying a
`Modelled from the spec:` doc comment.  Everything written by hand from the
repository's own source keeps the source's names and structure.
-/

set_option autoImplicit false

deriving instance DecidableEq for Except

namespace TeaPath

/-- JavaScript strings are modelled as lists of characters. -/
abbrev JSStr := List Char

/-- Embed a Lean string literal as a modelled JavaScript string. -/
def str (s : String) : JSStr := s.data

/-- JS `s.split(sep)` for a one-character separator: splits `s` on every
occurrence of `sep`, keeping empty chunks (so `"".split` is `[""]` and
`"/".split("/")` is `["", ""]`), exactly as in JavaScript. -/
def jsSplit (sep : Char) : JSStr → List JSStr
  | [] => [[]]
  | c :: cs =>
    match jsSplit sep cs with
    | [] => [[c]]
    | t :: ts => if c = sep then [] :: t :: ts else (c :: t) :: ts

/-- JS `array.join(sep)` for a one-character separator. -/
def jsJoin (sep : Char) : List JSStr → JSStr
  | [] => []
  | [x] => x
  | x :: y :: rest => x ++ sep :: jsJoin sep (y :: rest)

/-- JS `s.startsWith(p)`: `true` iff `p` is a leading substring of `s`. -/
def jsStartsWith : JSStr → JSStr → Bool
  | _, [] => true
  | [], _ :: _ => false
  | c :: cs, d :: ds => c = d && jsStartsWith cs ds

/-- A well-formed path segment: non-empty, not a dot segment, and free of
the separator character. -/
def GoodSeg (s : JSStr) : Prop :=
  s ≠ [] ∧ s ≠ ['.'] ∧ s ≠ ['.', '.'] ∧ '/' ∉ s

instance (s : JSStr) : Decidable (GoodSeg s) := by
  unfold GoodSeg; infer_instance

/-- One step of segment normalization: empty and `.` chunks are dropped,
`..` pops the last accepted segment, anything else is appended. -/
def normStep (acc : List JSStr) (seg : JSStr) : List JSStr :=
  if seg = [] ∨ seg = ['.'] then acc
  else if seg = ['.', '.'] then acc.dropLast
  else acc ++ [seg]

/-- The normalized segment sequence of a path string: split on `/` and
resolve `.`/`..`/empty chunks left to right. -/
def normSegs (s : JSStr) : List JSStr :=
  (jsSplit '/' s).foldl normStep []

/-- Render a segment sequence as an absolute path string: `"/"` for the
empty sequence, otherwise `/` followed by the `/`-joined segments. -/
def render (segs : List JSStr) : JSStr :=
  if segs = [] then ['/'] else '/' :: jsJoin '/' segs

/-- Modelled from the spec: `sys.normalize` from the external `deno/path`
collaborator, which is not part of the repository.  Section 4.1 of the
design document states the string is normalized by collapsing `//`,
resolving `.`/`..` segments and stripping any trailing slash except for the
root itself; the constructor only ever applies it to absolute strings. -/
def normalize (s : JSStr) : JSStr :=
  render (normSegs s)

/-- Modelled from the spec: `sys.dirname` from the external `deno/path`
collaborator.  Section 4.2 states `parent()` strips the final path segment
and that the parent of the root is the root. -/
def dirname (s : JSStr) : JSStr :=
  render ((normSegs s).dropLast)

/-- Modelled from the spec: `sys.basename` from the external `deno/path`
collaborator: the final path segment, empty for the root. -/
def basename (s : JSStr) : JSStr :=
  ((normSegs s).getLast?).getD []

/-- The error taxonomy of section 7 of the design document.  The source
throws plain `Error`s and strings at the corresponding sites; each throw
site is mapped to its kind here. -/
inductive Err where
  | invalidPath
  | notFound
  | alreadyExists
  | isADirectory
  | dirNotEmpty
  | notASubpath
  | filesystem
deriving DecidableEq, Repr

/-- The `Path` value type from `src/types/Path.ts`: a single stored string
(`readonly string` in the source). -/
structure Path where
  string : JSStr
deriving DecidableEq, Repr

/-- The constructor `new Path(input)` for a string argument: throws
`InvalidPathError` unless the input starts with `/` (an empty string has no
first character and is likewise rejected), otherwise stores
`sys.normalize(input)`.  The `Path`-copy overload stores the same string
and is the identity on this embedding. -/
def Path.make (input : JSStr) : Except Err Path :=
  if input.head? = some '/' then .ok ⟨normalize input⟩ else .error .invalidPath

/-- The static field `root = new Path("/")`. -/
def Path.root : Path := ⟨normalize (str "/")⟩

/-- `parent()`: `new Path(sys.dirname(this.string))`. -/
def Path.parent (p : Path) : Path := ⟨normalize (dirname p.string)⟩

/-- `join(...components)`: the components are `/`-joined; an absolute
joined string wins outright, an empty joined string returns `self`, and
otherwise the result is `new Path(this.string + "/" + joined)`. -/
def Path.join (p : Path) (components : List JSStr) : Path :=
  let joined := jsJoin '/' components
  if joined.head? = some '/' then ⟨normalize joined⟩
  else if joined ≠ [] then ⟨normalize (p.string ++ '/' :: joined)⟩
  else p

/-- `relative({to: base})`: both strings are split on `/` with an extra
`"/"` component prepended; if `this.string` starts with `base.string`
(the source's naive string test) the components of `this` past the length
of `base`'s components are re-joined, otherwise the source throws (mapped
to `NotASubpathError` by section 7 of the design document). -/
def Path.relative (p : Path) (base : Path) : Except Err JSStr :=
  let pathComps := [['/']] ++ jsSplit '/' p.string
  let baseComps := [['/']] ++ jsSplit '/' base.string
  if jsStartsWith p.string base.string then
    .ok (jsJoin '/' (pathComps.drop baseComps.length))
  else
    .error .notASubpath

/-- A filesystem entry: a regular file with its text content, a directory,
or a symbolic link holding its (possibly relative) target string. -/
inductive Entry where
  | file (content : JSStr)
  | dir
  | symlink (target : JSStr)
deriving DecidableEq, Repr

/-- Modelled from the spec: the ambient OS filesystem, section 9's "global
filesystem as implicit shared state", as a finite association of normalized
absolute paths to entries. -/
abbrev FS := List (Path × Entry)

/-- The entry stored at a path, if any — the non-following `lstat`
primitive of section 6. -/
def FS.lookup (fs : FS) (p : Path) : Option Entry :=
  match fs with
  | [] => none
  | (q, e) :: rest => if q = p then some e else FS.lookup rest p

/-- Remove the binding at a path (all occurrences). -/
def FS.erase (fs : FS) (p : Path) : FS :=
  match fs with
  | [] => []
  | (q, e) :: rest => if q = p then FS.erase rest p else (q, e) :: FS.erase rest p

/-- Remove a path together with everything below it. -/
def FS.eraseTree (fs : FS) (p : Path) : FS :=
  fs.filter (fun e => !(decide (e.1 = p) || jsStartsWith e.1.string (p.string ++ ['/'])))

/-- `true` iff some other entry lies directly inside the directory `p`. -/
def FS.hasChild (fs : FS) (p : Path) : Bool :=
  fs.any (fun e => decide (e.1 ≠ p) && decide (e.1.parent = p))

/-- Modelled from the spec: the symlink-following `stat` primitive of
section 6, resolving a chain of symbolic links at the final path component
(the glossary's final-component resolution; symlinks buried in earlier
components are not modelled, no claim depending on them).  A relative link
target is read against the link's parent directory, exactly the
`parent().join(target)` computation of section 4.4.  The fuel bounds chain
length; a link cycle exhausts it and stats as absent. -/
def statAux (fs : FS) : Nat → Path → Option Entry
  | 0, _ => none
  | n + 1, p =>
    match FS.lookup fs p with
    | some (Entry.symlink t) => statAux fs n (p.parent.join [t])
    | r => r

/-- The symlink-following `stat` primitive on a filesystem. -/
def FS.stat (fs : FS) (p : Path) : Option Entry :=
  statAux fs (fs.length + 1) p

/-- `exists()`: `Deno.statSync` succeeds (`NotFound` is caught and reported
as `false`). -/
def Path.exists (p : Path) (fs : FS) : Bool :=
  (FS.stat fs p).isSome

/-- `readlink()`: `Deno.readLinkSync` on a symlink yields its target and
the result is `this.parent().join(output)`; on an existing non-link entry
the `EINVAL` branch returns `self`; on an absent path the `ENOENT` branch
rethrows (`NotFoundError`). -/
def Path.readlink (p : Path) (fs : FS) : Except Err Path :=
  match FS.lookup fs p with
  | some (Entry.symlink t) => .ok (p.parent.join [t])
  | some _ => .ok p
  | none => .error .notFound

/-- Modelled from the spec: the OS remove primitive `Deno.removeSync` of
section 6 — removing an absent path is `NotFoundError`, non-recursive
removal of a non-empty directory is `DirectoryNotEmptyError` (section 4.5),
and otherwise the entry (with its subtree when recursive) is removed. -/
def removeSync (fs : FS) (p : Path) (recursive : Bool) : Except Err FS :=
  match FS.lookup fs p with
  | none => .error .notFound
  | some Entry.dir =>
    if recursive then .ok (FS.eraseTree fs p)
    else if FS.hasChild fs p then .error .dirNotEmpty
    else .ok (FS.erase fs p)
  | some _ => .ok (FS.erase fs p)

/-- `rm({recursive})`: `Deno.removeSync` guarded by `this.exists()` — the
remove happens only when the (symlink-following) stat succeeds. -/
def Path.rm (p : Path) (fs : FS) (recursive : Bool) : Except Err FS :=
  if p.exists fs then removeSync fs p recursive else .ok fs

/-- Modelled from the spec: the write-whole-file-as-text primitive
`Deno.writeTextFileSync` of section 6, binding a regular file with the
given content at the path (the symlink-following behaviour of `open` on a
pre-existing dangling link is not modelled, no claim depending on it). -/
def writeTextFileSync (fs : FS) (p : Path) (text : JSStr) : FS :=
  (p, Entry.file text) :: FS.erase fs p

/-- `read()`: `Deno.readTextFile`, following symlinks like the stat
primitive; absent paths are `NotFoundError`, a directory is the catch-all
`FilesystemError`. -/
def Path.read (p : Path) (fs : FS) : Except Err JSStr :=
  match FS.stat fs p with
  | some (Entry.file c) => .ok c
  | some _ => .error .filesystem
  | none => .error .notFound

/-- `write({text, force})`: an existing destination throws
`file-exists:...` (`AlreadyExistsError`) unless `force`, in which case it
is first removed by `this.rm()` (non-recursive); then the text is written.
The `json` overload stringifies and takes the identical control path, so
content is modelled as the final text. -/
def Path.write (p : Path) (fs : FS) (text : JSStr) (force : Bool) : Except Err FS :=
  if p.exists fs then
    if force = false then .error .alreadyExists
    else
      match p.rm fs false with
      | .error e => .error e
      | .ok fs2 => .ok (writeTextFileSync fs2 p text)
  else .ok (writeTextFileSync fs p text)

/-- The destination selector of `mv`: `{to}` names the destination
exactly, `{into}` stands for `into.join(this.basename())`. -/
inductive MvDest where
  | to (p : Path)
  | into (p : Path)

/-- The destination path `mv` computes for a given selector. -/
def mvDest (p : Path) (dest : MvDest) : Path :=
  match dest with
  | .to t => t
  | .into d => d.join [basename p.string]

/-- Modelled from the spec: the external move primitive `fs.moveSync` of
the std library, per sections 4.5 and 6 — the source entry must exist
(`NotFoundError` otherwise); without `overwrite` an existing destination is
`AlreadyExistsError`; with `overwrite` the destination is replaced except
that an existing directory there is `IsADirectoryError`. -/
def moveSync (fs : FS) (src dst : Path) (overwrite : Bool) : Except Err FS :=
  match FS.lookup fs src with
  | none => .error .notFound
  | some e =>
    if overwrite then
      match FS.stat fs dst with
      | some Entry.dir => .error .isADirectory
      | _ => .ok ((dst, e) :: FS.erase (FS.erase fs dst) src)
    else
      if (FS.stat fs dst).isSome then .error .alreadyExists
      else .ok ((dst, e) :: FS.erase fs src)

/-- `mv({to | into, force})`: delegates to `fs.moveSync(this.string,
dst.string, {overwrite: force})` and returns the destination path. -/
def Path.mv (p : Path) (fs : FS) (dest : MvDest) (force : Bool) :
    Except Err (Path × FS) :=
  match dest with
  | .to t => (moveSync fs p t force).map (fun fs2 => (t, fs2))
  | .into d =>
    let dst := d.join [basename p.string]
    (moveSync fs p dst force).map (fun fs2 => (dst, fs2))

/-- The stored-string invariant asserted by the design document: the string
is absolute (leading `/`), has no `.` or `..` segments, and carries no
trailing slash unless it is exactly the root string. -/
def NormalizedString (s : JSStr) : Prop :=
  s.head? = some '/' ∧
  (∀ seg ∈ jsSplit '/' s, seg ≠ ['.'] ∧ seg ≠ ['.', '.']) ∧
  (s ≠ ['/'] → s.getLast? ≠ some '/')

/-! ### String-level lemmas -/

theorem jsSplit_ne_nil (sep : Char) (l : JSStr) : jsSplit sep l ≠ [] := by
  cases l with
  | nil => simp [jsSplit]
  | cons c cs =>
    rw [jsSplit]
    cases h : jsSplit sep cs with
    | nil => simp
    | cons t ts => by_cases hc : c = sep <;> simp [hc]

theorem jsSplit_cons_self (sep : Char) (l : JSStr) :
    jsSplit sep (sep :: l) = [] :: jsSplit sep l := by
  rw [jsSplit]
  cases h : jsSplit sep l with
  | nil => exact absurd h (jsSplit_ne_nil sep l)
  | cons t ts => simp

theorem jsSplit_no_sep (sep : Char) (x : JSStr) (h : sep ∉ x) : jsSplit sep x = [x] := by
  induction x with
  | nil => rfl
  | cons c cs ih =>
    have hc : c ≠ sep := fun e => h (e ▸ List.mem_cons_self c cs)
    have hcs : sep ∉ cs := fun m => h (List.mem_cons_of_mem c m)
    rw [jsSplit, ih hcs]
    simp [hc]

theorem jsSplit_append_sep (sep : Char) (x l : JSStr) (h : sep ∉ x) :
    jsSplit sep (x ++ sep :: l) = x :: jsSplit sep l := by
  induction x with
  | nil => simpa using jsSplit_cons_self sep l
  | cons c cs ih =>
    have hc : c ≠ sep := fun e => h (e ▸ List.mem_cons_self c cs)
    have hcs : sep ∉ cs := fun m => h (List.mem_cons_of_mem c m)
    rw [List.cons_append, jsSplit, ih hcs]
    simp [hc]

theorem jsSplit_jsJoin (sep : Char) : ∀ (xs : List JSStr), xs ≠ [] →
    (∀ x ∈ xs, sep ∉ x) → jsSplit sep (jsJoin sep xs) = xs
  | [], h, _ => absurd rfl h
  | [x], _, hall => by
    rw [jsJoin, jsSplit_no_sep sep x (hall x (by simp))]
  | x :: y :: rest, _, hall => by
    rw [jsJoin, jsSplit_append_sep sep x _ (hall x (by simp)),
      jsSplit_jsJoin sep (y :: rest) (by simp)
        (fun z hz => hall z (List.mem_cons_of_mem x hz))]

theorem jsJoin_append (sep : Char) : ∀ (xs ys : List JSStr), xs ≠ [] → ys ≠ [] →
    jsJoin sep (xs ++ ys) = jsJoin sep xs ++ sep :: jsJoin sep ys
  | [], _, h, _ => absurd rfl h
  | [x], ys, _, hy => by
    cases ys with
    | nil => exact absurd rfl hy
    | cons y r => simp [jsJoin]
  | x :: x2 :: rest, ys, _, hy => by
    have ih := jsJoin_append sep (x2 :: rest) ys (by simp) hy
    simp only [List.cons_append, List.append_eq, jsJoin] at ih ⊢
    rw [ih]
    simp [List.cons_append]

theorem jsStartsWith_append (l t : JSStr) : jsStartsWith (l ++ t) l = true := by
  induction l with
  | nil => cases t <;> rfl
  | cons c cs ih => simpa [jsStartsWith] using ih

theorem jsSplit_mem_no_sep (sep : Char) : ∀ (l chunk : JSStr),
    chunk ∈ jsSplit sep l → sep ∉ chunk := by
  intro l
  induction l with
  | nil =>
    intro chunk h
    simp [jsSplit] at h
    simp [h]
  | cons c cs ih =>
    intro chunk h
    rw [jsSplit] at h
    cases hcs : jsSplit sep cs with
    | nil => exact absurd hcs (jsSplit_ne_nil sep cs)
    | cons t ts =>
      rw [hcs] at h
      dsimp only at h
      have hmem_t : t ∈ jsSplit sep cs := by rw [hcs]; exact List.mem_cons_self t ts
      by_cases hc : c = sep
      · subst hc
        rw [if_pos rfl, List.mem_cons, List.mem_cons] at h
        rcases h with h | h | h
        · simp [h]
        · rw [h]; exact ih t hmem_t
        · exact ih chunk (by rw [hcs]; exact List.mem_cons_of_mem t h)
      · rw [if_neg hc, List.mem_cons] at h
        rcases h with h | h
        · intro hm
          rw [h] at hm
          rcases List.mem_cons.mp hm with e | hm2
          · exact hc e.symm
          · exact ih t hmem_t hm2
        · exact ih chunk (by rw [hcs]; exact List.mem_cons_of_mem t h)

theorem jsJoin_head? (sep : Char) (x : JSStr) (xs : List JSStr) (h : x ≠ []) :
    (jsJoin sep (x :: xs)).head? = x.head? := by
  cases xs with
  | nil => rfl
  | cons y r =>
    rw [jsJoin]
    cases x with
    | nil => exact absurd rfl h
    | cons c cs => rfl

theorem jsJoin_getLast?_ne_sep (sep : Char) : ∀ (xs : List JSStr), xs ≠ [] →
    (∀ x ∈ xs, x ≠ [] ∧ sep ∉ x) → (jsJoin sep xs).getLast? ≠ some sep
  | [], h, _ => absurd rfl h
  | [x], _, hall => by
    intro hc
    obtain ⟨hne, hnm⟩ := hall x (by simp)
    rw [jsJoin, List.getLast?_eq_getLast_of_ne_nil hne] at hc
    exact hnm (Option.some.inj hc ▸ List.getLast_mem hne)
  | x :: y :: rest, _, hall => by
    rw [jsJoin, List.getLast?_append_cons]
    have ih := jsJoin_getLast?_ne_sep sep (y :: rest) (by simp)
      (fun z hz => hall z (List.mem_cons_of_mem x hz))
    cases hj : jsJoin sep (y :: rest) with
    | nil =>
      have hy : (jsJoin sep (y :: rest)).head? = y.head? :=
        jsJoin_head? sep y rest (hall y (by simp)).1
      rw [hj] at hy
      obtain ⟨hyne, _⟩ := hall y (by simp)
      cases y with
      | nil => exact absurd rfl hyne
      | cons d ds => simp at hy
    | cons d ds =>
      rw [List.getLast?_cons_cons, ← hj]
      exact ih

/-! ### Normalization lemmas -/

theorem foldl_normStep_good : ∀ (segs : List JSStr), (∀ s ∈ segs, GoodSeg s) →
    ∀ acc, List.foldl normStep acc segs = acc ++ segs := by
  intro segs
  induction segs with
  | nil => intro _ acc; simp
  | cons s rest ih =>
    intro h acc
    obtain ⟨h1, h2, h3, _⟩ := h s (by simp)
    rw [List.foldl_cons, ih (fun z hz => h z (by simp [hz]))]
    unfold normStep
    rw [if_neg (by simp [h1, h2]), if_neg h3]
    simp

theorem normSegs_render (segs : List JSStr) (h : ∀ s ∈ segs, GoodSeg s) :
    normSegs (render segs) = segs := by
  cases segs with
  | nil => rfl
  | cons s rest =>
    rw [render, if_neg (by simp)]
    unfold normSegs
    rw [jsSplit_cons_self,
      jsSplit_jsJoin '/' (s :: rest) (by simp) (fun x hx => (h x hx).2.2.2),
      List.foldl_cons]
    have hstep : normStep [] [] = [] := by simp [normStep]
    rw [hstep, foldl_normStep_good (s :: rest) h []]
    simp

theorem foldl_normStep_all_good : ∀ (chunks : List JSStr) (acc : List JSStr),
    (∀ c ∈ chunks, '/' ∉ c) → (∀ a ∈ acc, GoodSeg a) →
    ∀ x ∈ List.foldl normStep acc chunks, GoodSeg x := by
  intro chunks
  induction chunks with
  | nil =>
    intro acc _ hacc x hx
    simp at hx
    exact hacc x hx
  | cons c rest ih =>
    intro acc hch hacc x hx
    rw [List.foldl_cons] at hx
    refine ih (normStep acc c) (fun z hz => hch z (by simp [hz])) ?_ x hx
    intro a ha
    unfold normStep at ha
    split at ha
    · exact hacc a ha
    · split at ha
      · exact hacc a ((List.dropLast_sublist acc).mem ha)
      · rcases List.mem_append.mp ha with hmem | hmem
        · exact hacc a hmem
        · next hne1 hne2 =>
          simp at hmem
          rw [hmem]
          refine ⟨fun e => hne1 (Or.inl e), fun e => hne1 (Or.inr e), hne2, ?_⟩
          exact hch c (by simp)

theorem normSegs_good (s : JSStr) : ∀ seg ∈ normSegs s, GoodSeg seg :=
  foldl_normStep_all_good (jsSplit '/' s) []
    (fun c hc => jsSplit_mem_no_sep '/' s c hc) (by simp)

theorem render_normalizedString (segs : List JSStr)
    (h : ∀ s ∈ segs, GoodSeg s) : NormalizedString (render segs) := by
  cases segs with
  | nil =>
    refine ⟨rfl, ?_, by simp [render]⟩
    intro seg hseg
    simp [render, jsSplit] at hseg
    simp [hseg]
  | cons s rest =>
    rw [render, if_neg (by simp)]
    have hnosep : ∀ x ∈ s :: rest, '/' ∉ x := fun x hx => (h x hx).2.2.2
    have hsplit : jsSplit '/' ('/' :: jsJoin '/' (s :: rest)) =
        [] :: (s :: rest) := by
      rw [jsSplit_cons_self, jsSplit_jsJoin '/' (s :: rest) (by simp) hnosep]
    refine ⟨rfl, ?_, ?_⟩
    · intro seg hseg
      rw [hsplit] at hseg
      rcases List.mem_cons.mp hseg with e | hmem
      · simp [e]
      · obtain ⟨_, h2, h3, _⟩ := h seg hmem
        exact ⟨h2, h3⟩
    · intro _
      have hjoin_ne : jsJoin '/' (s :: rest) ≠ [] := by
        intro he
        have hh := jsJoin_head? '/' s rest (h s (by simp)).1
        rw [he] at hh
        obtain ⟨h1, _⟩ := h s (by simp)
        cases s with
        | nil => exact h1 rfl
        | cons d ds => simp at hh
      cases hj : jsJoin '/' (s :: rest) with
      | nil => exact absurd hj hjoin_ne
      | cons d ds =>
        rw [List.getLast?_cons_cons, ← hj]
        exact jsJoin_getLast?_ne_sep '/' (s :: rest) (by simp)
          (fun x hx => ⟨(h x hx).1, (h x hx).2.2.2⟩)

theorem normalize_normalizedString (s : JSStr) :
    NormalizedString (normalize s) :=
  render_normalizedString (normSegs s) (normSegs_good s)

theorem normalize_render (segs : List JSStr) (h : ∀ s ∈ segs, GoodSeg s) :
    normalize (render segs) = render segs := by
  rw [normalize, normSegs_render segs h]

/-! ### Filesystem lemmas -/

theorem statAux_mono (fs : FS) : ∀ (n : Nat) (p : Path) (e : Entry),
    statAux fs n p = some e → statAux fs (n + 1) p = some e := by
  intro n
  induction n with
  | zero => intro p e h; simp [statAux] at h
  | succ n ih =>
    intro p e h
    rw [statAux] at h ⊢
    cases hl : FS.lookup fs p with
    | none => rw [hl] at h; exact h
    | some e2 =>
      cases e2 with
      | symlink t =>
        rw [hl] at h
        dsimp only at h ⊢
        exact ih (p.parent.join [t]) e h
      | file c => rw [hl] at h; exact h
      | dir => rw [hl] at h; exact h

theorem lookup_none_stat (fs : FS) (p : Path) (h : FS.lookup fs p = none) :
    FS.stat fs p = none := by
  rw [FS.stat, statAux, h]

theorem exists_lookup (fs : FS) (p : Path) (h : p.exists fs = true) :
    ∃ e, FS.lookup fs p = some e := by
  rw [Path.exists, FS.stat, statAux] at h
  cases hl : FS.lookup fs p with
  | none => rw [hl] at h; simp at h
  | some e => exact ⟨e, rfl⟩

theorem lookup_cons_self (rest : FS) (p : Path) (e : Entry) :
    FS.lookup ((p, e) :: rest) p = some e := by
  rw [FS.lookup, if_pos rfl]

theorem stat_cons_file (rest : FS) (p : Path) (c : JSStr) :
    FS.stat ((p, Entry.file c) :: rest) p = some (Entry.file c) := by
  rw [FS.stat, statAux, lookup_cons_self]

/-! ### Claim theorems -/

/-- C1: the claim says `relative(to:)` fails with `NotASubpathError` whenever
the base is not a segment-boundary prefix, in particular for base `/foo` and
target `/foobar`.  The code instead uses a naive string-prefix test: on that
very input it raises no error and returns the empty relative string.  The
design document itself flags the source's check as a known defect, so the
claim is right and the code is wrong; this theorem evaluates the code at the
failing input. -/
theorem relative_naive_accepts_foobar :
    Path.make (str "/foo") = .ok ⟨str "/foo"⟩ ∧
    Path.make (str "/foobar") = .ok ⟨str "/foobar"⟩ ∧
    (⟨str "/foobar"⟩ : Path).relative ⟨str "/foo"⟩ = .ok (str "") := by
  decide

/-- C2 (counterexample): the roundtrip `base.join(target.relative(to: base))
== target` fails when `base` is the root.  The root's segment sequence is
empty, so `/a/b`'s segments trivially start with it, yet `relative` returns
`"b"` (dropping a segment, because `"/".split("/")` has two components) and
the roundtrip lands on `/b ≠ /a/b`. -/
theorem relative_root_roundtrip_fails :
    normSegs Path.root.string = [] ∧
    normSegs (str "/a/b") = [str "a", str "b"] ∧
    (⟨str "/a/b"⟩ : Path).relative Path.root = .ok (str "b") ∧
    Path.root.join [str "b"] = ⟨str "/b"⟩ ∧
    (⟨str "/b"⟩ : Path) ≠ (⟨str "/a/b"⟩ : Path) := by
  decide

/-- C7: `readlink` on a path whose final component is a symlink returns
`parent().join(link target)`; a dangling target (nothing stats at the
computed destination) is not an error and only the final component is
resolved. -/
theorem readlink_dangling_ok (fs : FS) (p : Path) (t : JSStr)
    (hlink : FS.lookup fs p = some (Entry.symlink t))
    (_hdangling : (p.parent.join [t]).exists fs = false) :
    p.readlink fs = .ok (p.parent.join [t]) := by
  rw [Path.readlink, hlink]

/-- C7 witness: a concrete dangling symlink `/a -> /b` with `/b` absent. -/
theorem readlink_dangling_ok_witness :
    Path.readlink ⟨str "/a"⟩ [(⟨str "/a"⟩, Entry.symlink (str "/b"))] =
      .ok ⟨str "/b"⟩ :=
  readlink_dangling_ok [(⟨str "/a"⟩, Entry.symlink (str "/b"))] ⟨str "/a"⟩
    (str "/b") (by decide) (by decide)

/-- C9: `rm` on a path at which no entry exists is a no-op: no error and the
filesystem is returned unchanged. -/
theorem rm_absent_noop (fs : FS) (p : Path) (r : Bool)
    (h : FS.lookup fs p = none) : p.rm fs r = .ok fs := by
  have hex : p.exists fs = false := by
    rw [Path.exists, lookup_none_stat fs p h]; rfl
  rw [Path.rm, hex]
  simp

/-- C9 witness: removing `/z` from a filesystem not containing it. -/
theorem rm_absent_noop_witness :
    Path.rm ⟨str "/z"⟩ [(⟨str "/a"⟩, Entry.file (str "x"))] false =
      .ok [(⟨str "/a"⟩, Entry.file (str "x"))] :=
  rm_absent_noop [(⟨str "/a"⟩, Entry.file (str "x"))] ⟨str "/z"⟩ false
    (by decide)

/-- C10: `rm` on a dangling symlink is a no-op that leaves the link in
place: `rm` guards with the following-symlinks `exists()`, which stats the
link's target and reports `false` when that target is absent. -/
theorem rm_dangling_symlink_noop (fs : FS) (p : Path) (t : JSStr) (r : Bool)
    (hlink : FS.lookup fs p = some (Entry.symlink t))
    (hdangling : FS.stat fs (p.parent.join [t]) = none) :
    p.rm fs r = .ok fs := by
  have hstat : FS.stat fs p = none := by
    rw [FS.stat, statAux, hlink]
    dsimp only
    cases hs : statAux fs fs.length (p.parent.join [t]) with
    | none => rfl
    | some e =>
      have hmono := statAux_mono fs fs.length (p.parent.join [t]) e hs
      rw [FS.stat] at hdangling
      rw [hmono] at hdangling
      exact absurd hdangling (by simp)
  have hex : p.exists fs = false := by rw [Path.exists, hstat]; rfl
  rw [Path.rm, hex]
  simp

/-- C10 witness: a dangling symlink `/a -> /b` survives `rm` untouched. -/
theorem rm_dangling_symlink_noop_witness :
    Path.rm ⟨str "/a"⟩ [(⟨str "/a"⟩, Entry.symlink (str "/b"))] true =
      .ok [(⟨str "/a"⟩, Entry.symlink (str "/b"))] :=
  rm_dangling_symlink_noop [(⟨str "/a"⟩, Entry.symlink (str "/b"))]
    ⟨str "/a"⟩ (str "/b") true (by decide) (by decide)

/-- C5: `mv` without `force` fails with `AlreadyExistsError` whenever the
computed destination (the `to` path, or `into.join(basename)`) already
exists, with no special case when the destination is the source itself. -/
theorem mv_noforce_existing_dest_fails (fs : FS) (p : Path) (dest : MvDest)
    (e : Entry) (hsrc : FS.lookup fs p = some e)
    (hdst : (mvDest p dest).exists fs = true) :
    p.mv fs dest false = .error .alreadyExists := by
  obtain t | d := dest
  · have hst : (FS.stat fs t).isSome = true := hdst
    simp [Path.mv, moveSync, hsrc, hst, Except.map]
  · have hst : (FS.stat fs (d.join [basename p.string])).isSome = true := hdst
    simp [Path.mv, moveSync, hsrc, hst, Except.map]

/-- C5 witness: the degenerate self-move `mv {to: self}` on an existing
file fails with `AlreadyExistsError`. -/
theorem mv_noforce_existing_dest_fails_witness :
    Path.mv ⟨str "/a"⟩ [(⟨str "/a"⟩, Entry.file (str "x"))]
      (.to ⟨str "/a"⟩) false = .error .alreadyExists :=
  mv_noforce_existing_dest_fails [(⟨str "/a"⟩, Entry.file (str "x"))]
    ⟨str "/a"⟩ (.to ⟨str "/a"⟩) (Entry.file (str "x")) (by decide) (by decide)

/-- C6: `mv` with `force` overwrites any existing destination entry —
the moved entry ends up bound at the destination — except that a
destination which stats as an existing directory fails with
`IsADirectoryError` instead. -/
theorem mv_force_overwrites_except_dir (fs : FS) (p t : Path) (e : Entry)
    (hsrc : FS.lookup fs p = some e) :
    (FS.stat fs t = some Entry.dir →
      p.mv fs (.to t) true = .error .isADirectory) ∧
    (FS.stat fs t ≠ some Entry.dir →
      p.mv fs (.to t) true = .ok (t, (t, e) :: FS.erase (FS.erase fs t) p) ∧
      FS.lookup ((t, e) :: FS.erase (FS.erase fs t) p) t = some e) := by
  constructor
  · intro hdir
    simp [Path.mv, moveSync, hsrc, hdir, Except.map]
  · intro hnd
    refine ⟨?_, lookup_cons_self _ t e⟩
    cases hs : FS.stat fs t with
    | none => simp [Path.mv, moveSync, hsrc, hs, Except.map]
    | some e2 =>
      cases e2 with
      | dir => exact absurd hs hnd
      | file c => simp [Path.mv, moveSync, hsrc, hs, Except.map]
      | symlink t2 => simp [Path.mv, moveSync, hsrc, hs, Except.map]

/-- C6 witness: with `force`, `/f` replaces the existing file `/g`. -/
theorem mv_force_overwrites_except_dir_witness :
    Path.mv ⟨str "/f"⟩
      [(⟨str "/f"⟩, Entry.file (str "x")), (⟨str "/g"⟩, Entry.file (str "o"))]
      (.to ⟨str "/g"⟩) true =
      .ok (⟨str "/g"⟩, [(⟨str "/g"⟩, Entry.file (str "x"))]) ∧
    FS.lookup [(⟨str "/g"⟩, Entry.file (str "x"))] ⟨str "/g"⟩ =
      some (Entry.file (str "x")) :=
  (mv_force_overwrites_except_dir
    [(⟨str "/f"⟩, Entry.file (str "x")), (⟨str "/g"⟩, Entry.file (str "o"))]
    ⟨str "/f"⟩ ⟨str "/g"⟩ (Entry.file (str "x")) (by decide)).2 (by decide)

/-- C8: `join`'s three-way contract — an absolute `/`-joined component
string wins outright and is exactly the path the constructor yields for it,
an empty joined string returns `self` unchanged, and otherwise the result
is the normalization of `base + "/" + joined`; in particular
`Path("/tmp/x").join("y","z") == Path("/tmp/x/y/z")` and
`Path("/tmp/x").join("/abs") == Path("/abs")`. -/
theorem join_spec (p : Path) (cs : List JSStr) :
    ((jsJoin '/' cs).head? = some '/' →
      p.join cs = ⟨normalize (jsJoin '/' cs)⟩) ∧
    (jsJoin '/' cs = [] → p.join cs = p) ∧
    ((jsJoin '/' cs).head? ≠ some '/' → jsJoin '/' cs ≠ [] →
      p.join cs = ⟨normalize (p.string ++ '/' :: jsJoin '/' cs)⟩) ∧
    (⟨str "/tmp/x"⟩ : Path).join [str "y", str "z"] = ⟨str "/tmp/x/y/z"⟩ ∧
    (⟨str "/tmp/x"⟩ : Path).join [str "/abs"] = ⟨str "/abs"⟩ ∧
    Path.make (str "/tmp/x/y/z") = .ok ⟨str "/tmp/x/y/z"⟩ ∧
    Path.make (str "/abs") = .ok ⟨str "/abs"⟩ := by
  refine ⟨?_, ?_, ?_, by decide, by decide, by decide, by decide⟩
  · intro h
    rw [Path.join, if_pos h]
  · intro h
    rw [Path.join, h]
    simp
  · intro h1 h2
    rw [Path.join, if_neg h1, if_pos h2]

/-- C8 witness: the relative branch at a concrete base and component. -/
theorem join_spec_witness :
    (⟨str "/t"⟩ : Path).join [str "a"] = ⟨str "/t/a"⟩ :=
  (join_spec ⟨str "/t"⟩ [str "a"]).2.2.1 (by decide) (by decide)

theorem join_normalized (p : Path) (cs : List JSStr)
    (h : NormalizedString p.string) : NormalizedString (p.join cs).string := by
  rw [Path.join]
  split
  · exact normalize_normalizedString _
  · split
    · exact normalize_normalizedString _
    · exact h

/-- C3: every live `Path` string is absolute and normalized — it starts
with `/`, splitting it on `/` yields no `.` or `..` segments, and it has no
trailing slash unless it is exactly the root string — after construction
from any accepted input, and this is preserved by `join`, by `parent`, and
by the path `mv` returns (for both the `to` and `into` forms). -/
theorem path_strings_normalized :
    (∀ (s : JSStr) (p : Path), Path.make s = .ok p →
      NormalizedString p.string) ∧
    (∀ (p : Path) (cs : List JSStr), NormalizedString p.string →
      NormalizedString (p.join cs).string) ∧
    (∀ p : Path, NormalizedString p.parent.string) ∧
    (∀ (fs : FS) (p t : Path) (force : Bool) (q : Path) (fs2 : FS),
      NormalizedString t.string →
      p.mv fs (.to t) force = .ok (q, fs2) → NormalizedString q.string) ∧
    (∀ (fs : FS) (p d : Path) (force : Bool) (q : Path) (fs2 : FS),
      NormalizedString d.string →
      p.mv fs (.into d) force = .ok (q, fs2) → NormalizedString q.string) := by
  refine ⟨?_, join_normalized, ?_, ?_, ?_⟩
  · intro s p h
    rw [Path.make] at h
    split at h
    · cases h
      exact normalize_normalizedString s
    · cases h
  · intro p
    rw [Path.parent]
    exact normalize_normalizedString _
  · intro fs p t force q fs2 ht hmv
    rw [Path.mv] at hmv
    cases hms : moveSync fs p t force with
    | error e => rw [hms] at hmv; cases hmv
    | ok fs3 =>
      rw [hms] at hmv
      cases hmv
      exact ht
  · intro fs p d force q fs2 hd hmv
    rw [Path.mv] at hmv
    cases hms : moveSync fs p (d.join [basename p.string]) force with
    | error e => rw [hms] at hmv; cases hmv
    | ok fs3 =>
      rw [hms] at hmv
      cases hmv
      exact join_normalized d [basename p.string] hd

/-- C3 witness: the constructor normalizes `"/a//b/../c/"` to the invariant
form `"/a/c"`. -/
theorem path_strings_normalized_witness :
    NormalizedString (str "/a/c") :=
  path_strings_normalized.1 (str "/a//b/../c/") ⟨str "/a/c"⟩ (by decide)

/-- C4 (counterexample): the claim's force branch — "the existing entry is
removed first and the new content is written" — fails when the existing
entry is a non-empty directory: `write` calls the non-recursive `rm()`,
which raises `DirectoryNotEmptyError`, so nothing is written and no read of
the new content is possible. -/
theorem write_force_nonempty_dir_fails :
    (⟨str "/d"⟩ : Path).exists
      [(⟨str "/d"⟩, Entry.dir), (⟨str "/d/x"⟩, Entry.file (str "c"))] =
      true ∧
    (⟨str "/d"⟩ : Path).write
      [(⟨str "/d"⟩, Entry.dir), (⟨str "/d/x"⟩, Entry.file (str "c"))]
      (str "y") true = .error .dirNotEmpty := by
  decide

/-- C4 (amended): `write` fails with `AlreadyExistsError` iff an entry
exists at the path (per the following-symlinks stat) and `force` is false,
regardless of content; with `force`, provided the existing entry is not a
non-empty directory, it is removed first and the new content written, so a
subsequent `read()` yields the new content — but an existing non-empty
directory makes `write` with `force` fail with `DirectoryNotEmptyError`. -/
theorem write_conflict_spec (fs : FS) (p : Path) (text : JSStr)
    (force : Bool) :
    (p.write fs text force = .error .alreadyExists ↔
      p.exists fs = true ∧ force = false) ∧
    (p.exists fs = true →
      ¬(FS.lookup fs p = some Entry.dir ∧ FS.hasChild fs p = true) →
      p.write fs text true =
        .ok ((p, Entry.file text) :: FS.erase (FS.erase fs p) p) ∧
      Path.read p ((p, Entry.file text) :: FS.erase (FS.erase fs p) p) =
        .ok text) ∧
    (FS.lookup fs p = some Entry.dir → FS.hasChild fs p = true →
      p.write fs text true = .error .dirNotEmpty) := by
  refine ⟨?_, ?_, ?_⟩
  · cases hex : p.exists fs with
    | false =>
      rw [Path.write, if_neg (by simp [hex])]
      simp [hex]
    | true =>
      cases force with
      | false =>
        rw [Path.write, if_pos hex, if_pos rfl]
        simp [hex]
      | true =>
        obtain ⟨e, hl⟩ := exists_lookup fs p hex
        rw [Path.write, if_pos hex, if_neg (by simp)]
        have hrm : p.rm fs false = .error .dirNotEmpty ∨
            p.rm fs false = .ok (FS.erase fs p) := by
          rw [Path.rm, if_pos hex, removeSync, hl]
          cases e with
          | dir =>
            cases hch : FS.hasChild fs p with
            | true => exact Or.inl rfl
            | false => exact Or.inr rfl
          | file c => exact Or.inr rfl
          | symlink t => exact Or.inr rfl
        rcases hrm with hrm | hrm <;> rw [hrm] <;> simp
  · intro hex hnd
    obtain ⟨e, hl⟩ := exists_lookup fs p hex
    have hrm : p.rm fs false = .ok (FS.erase fs p) := by
      rw [Path.rm, if_pos hex, removeSync, hl]
      cases e with
      | dir =>
        cases hch : FS.hasChild fs p with
        | false => rfl
        | true => exact absurd ⟨hl, hch⟩ hnd
      | file c => rfl
      | symlink t => rfl
    refine ⟨?_, ?_⟩
    · rw [Path.write, if_pos hex, if_neg (by simp), hrm]
      rfl
    · rw [Path.read, stat_cons_file]
  · intro hdir hch
    have hex : p.exists fs = true := by
      rw [Path.exists, FS.stat, statAux, hdir]
      rfl
    rw [Path.write, if_pos hex, if_neg (by simp), Path.rm, if_pos hex,
      removeSync, hdir, hch]
    rfl

/-- C4 witness: overwriting an existing file with `force` and reading back
the new content. -/
theorem write_conflict_spec_witness :
    (⟨str "/f"⟩ : Path).write [(⟨str "/f"⟩, Entry.file (str "x"))]
      (str "y") true =
      .ok [(⟨str "/f"⟩, Entry.file (str "y"))] ∧
    Path.read ⟨str "/f"⟩ [(⟨str "/f"⟩, Entry.file (str "y"))] =
      .ok (str "y") :=
  (write_conflict_spec [(⟨str "/f"⟩, Entry.file (str "x"))] ⟨str "/f"⟩
    (str "y") true).2.1 (by decide) (by decide)

theorem jsJoin_single (sep : Char) (x : JSStr) : jsJoin sep [x] = x := rfl

theorem relative_render (bs rest : List JSStr)
    (hbs : ∀ s ∈ bs, GoodSeg s) (hrest : ∀ s ∈ rest, GoodSeg s)
    (hroot : bs ≠ [] ∨ rest = []) :
    Path.relative ⟨render (bs ++ rest)⟩ ⟨render bs⟩ =
      .ok (jsJoin '/' rest) := by
  rcases eq_or_ne rest [] with hre | hre
  · subst hre
    rw [List.append_nil, Path.relative]
    have h1 : jsStartsWith (render bs) (render bs) = true := by
      have h2 := jsStartsWith_append (render bs) []
      rwa [List.append_nil] at h2
    rw [if_pos h1, List.drop_length]
  · have hbsne : bs ≠ [] := hroot.resolve_right hre
    have hgood_all : ∀ x ∈ bs ++ rest, GoodSeg x := by
      intro x hx
      rcases List.mem_append.mp hx with h | h
      · exact hbs x h
      · exact hrest x h
    have hnosep_bs : ∀ x ∈ bs, '/' ∉ x := fun x hx => (hbs x hx).2.2.2
    have hnosep_all : ∀ x ∈ bs ++ rest, '/' ∉ x :=
      fun x hx => (hgood_all x hx).2.2.2
    have happne : bs ++ rest ≠ [] := by
      intro h
      exact hbsne (List.append_eq_nil.mp h).1
    have hrb : render bs = '/' :: jsJoin '/' bs := by
      rw [render, if_neg hbsne]
    have hrt : render (bs ++ rest) =
        ('/' :: jsJoin '/' bs) ++ '/' :: jsJoin '/' rest := by
      rw [render, if_neg happne, jsJoin_append '/' bs rest hbsne hre]
      simp
    have hst : jsStartsWith (render (bs ++ rest)) (render bs) = true := by
      rw [hrt, hrb]
      exact jsStartsWith_append _ _
    have hsplit_b : jsSplit '/' (render bs) = [] :: bs := by
      rw [hrb, jsSplit_cons_self, jsSplit_jsJoin '/' bs hbsne hnosep_bs]
    have hsplit_t : jsSplit '/' (render (bs ++ rest)) =
        [] :: (bs ++ rest) := by
      rw [render, if_neg happne, jsSplit_cons_self,
        jsSplit_jsJoin '/' (bs ++ rest) happne hnosep_all]
    rw [Path.relative, if_pos hst, hsplit_t, hsplit_b]
    have e1 : [['/']] ++ [] :: (bs ++ rest) =
        ([['/'], ([] : JSStr)] ++ bs) ++ rest := by simp
    have e2 : ([['/']] ++ ([] : JSStr) :: bs).length =
        ([['/'], ([] : JSStr)] ++ bs).length := by simp
    rw [e1, e2, List.drop_left]

theorem join_render (bs rest : List JSStr)
    (hbs : ∀ s ∈ bs, GoodSeg s) (hrest : ∀ s ∈ rest, GoodSeg s)
    (hroot : bs ≠ [] ∨ rest = []) :
    Path.join ⟨render bs⟩ [jsJoin '/' rest] = ⟨render (bs ++ rest)⟩ := by
  rcases eq_or_ne rest [] with hre | hre
  · subst hre
    rw [List.append_nil]
    rfl
  · have hbsne : bs ≠ [] := hroot.resolve_right hre
    obtain ⟨s, rest', rfl⟩ : ∃ a r, rest = a :: r := by
      cases rest with
      | nil => exact absurd rfl hre
      | cons a b => exact ⟨a, b, rfl⟩
    obtain ⟨hs1, _, _, hs4⟩ := hrest s (by simp)
    obtain ⟨c, cs, rfl⟩ : ∃ d ds, s = d :: ds := by
      cases s with
      | nil => exact absurd rfl hs1
      | cons a b => exact ⟨a, b, rfl⟩
    have hc : c ≠ '/' := by
      intro e
      subst e
      exact hs4 (List.mem_cons_self _ _)
    have hhead : (jsJoin '/' ((c :: cs) :: rest')).head? = some c := by
      rw [jsJoin_head? '/' (c :: cs) rest' (by simp)]
      rfl
    have hJne : jsJoin '/' ((c :: cs) :: rest') ≠ [] := by
      intro h
      rw [h] at hhead
      cases hhead
    rw [Path.join, jsJoin_single]
    rw [if_neg (by rw [hhead]; intro h; exact hc (Option.some.inj h)),
      if_pos hJne]
    have hgood_all : ∀ x ∈ bs ++ (c :: cs) :: rest', GoodSeg x := by
      intro x hx
      rcases List.mem_append.mp hx with h | h
      · exact hbs x h
      · exact hrest x h
    have hcat : render bs ++ '/' :: jsJoin '/' ((c :: cs) :: rest') =
        render (bs ++ (c :: cs) :: rest') := by
      rw [render, if_neg hbsne, render,
        if_neg (by intro h; exact hbsne (List.append_eq_nil.mp h).1),
        jsJoin_append '/' bs ((c :: cs) :: rest') hbsne (by simp)]
      simp
    rw [hcat, normalize_render _ hgood_all]

/-- C2 (amended): for every pair of normalized paths presented by their
segment sequences — `base` with segments `bs`, `target` with segments
`bs ++ rest` — the roundtrip `base.join(target.relative(to: base)) ==
target` holds, provided `base` is not the root (or `target` equals
`base`); the original claim's unrestricted root case is refuted by the
counterexample above. -/
theorem relative_join_roundtrip (bs rest : List JSStr)
    (hbs : ∀ s ∈ bs, GoodSeg s) (hrest : ∀ s ∈ rest, GoodSeg s)
    (hroot : bs ≠ [] ∨ rest = []) :
    ∃ r, Path.relative ⟨render (bs ++ rest)⟩ ⟨render bs⟩ = .ok r ∧
      Path.join ⟨render bs⟩ [r] = ⟨render (bs ++ rest)⟩ :=
  ⟨jsJoin '/' rest, relative_render bs rest hbs hrest hroot,
    join_render bs rest hbs hrest hroot⟩

/-- C2 witness: the roundtrip at base `/a`, target `/a/b`. -/
theorem relative_join_roundtrip_witness :
    ∃ r, Path.relative ⟨str "/a/b"⟩ ⟨str "/a"⟩ = .ok r ∧
      Path.join ⟨str "/a"⟩ [r] = ⟨str "/a/b"⟩ :=
  relative_join_roundtrip [str "a"] [str "b"] (by decide) (by decide)
    (Or.inl (by decide))

end TeaPath
